import Mathlib

/-!
# Verification of the Renderer's geometry pipeline and PNG defilter stage

A shallow embedding, over exact rational arithmetic, of the code in
`src/pipeline.cpp` (homogeneous clipping, fan triangulation, rasterization,
framebuffer writes) and of the row-defilter stage of `src/png_image.cc`.

Machine floats of the C++ source are modelled as `ℚ`.  All operations of the
source that the claims touch are translated function by function; places where
the repository's own headers (`util.hpp`, `macro.hpp`, `pipeline.hpp`) are not
part of the provided sources are modelled from the specification and marked
`Modelled from the spec:` in their doc comments.
-/

/-- 4D float vector (`Vector4f` of the source, from the missing math header).
Components modelled as exact rationals. -/
structure Vec4 where
  x : ℚ
  y : ℚ
  z : ℚ
  w : ℚ
deriving DecidableEq, Repr

/-- 3D float vector (`Vector3f`). -/
structure Vec3 where
  x : ℚ
  y : ℚ
  z : ℚ
deriving DecidableEq, Repr

/-- 2D float vector (`Vector2f`). -/
structure Vec2 where
  x : ℚ
  y : ℚ
deriving DecidableEq, Repr

/-- Modelled from the spec: `lerp(a, b, t) = a + t·(b − a)` — the
`vectorInterpolate` operation of `util.hpp` (not under `src/`), on `Vector4f`. -/
def Vec4.lerp (a b : Vec4) (t : ℚ) : Vec4 :=
  ⟨a.x + t * (b.x - a.x), a.y + t * (b.y - a.y),
   a.z + t * (b.z - a.z), a.w + t * (b.w - a.w)⟩

/-- Modelled from the spec: `lerp` on `Vector3f`. -/
def Vec3.lerp (a b : Vec3) (t : ℚ) : Vec3 :=
  ⟨a.x + t * (b.x - a.x), a.y + t * (b.y - a.y), a.z + t * (b.z - a.z)⟩

/-- Modelled from the spec: `lerp` on `Vector2f`. -/
def Vec2.lerp (a b : Vec2) (t : ℚ) : Vec2 :=
  ⟨a.x + t * (b.x - a.x), a.y + t * (b.y - a.y)⟩

/-- The clip-plane enumeration of the source (`Plane` in the missing
`pipeline.hpp`); the spec fixes the order
`{MINIMAL, RIGHT, LEFT, TOP, BOTTOM, NEAR, FAR}`. -/
inductive Plane where
  | MINIMAL
  | RIGHT
  | LEFT
  | TOP
  | BOTTOM
  | NEAR
  | FAR
deriving DecidableEq, Repr

/-- Modelled from the spec: the constant `MINIMAL_VAL` (ε) of the missing
`macro.hpp`; the spec says a small positive constant, suggested `1e-5`. -/
def MINIMAL_VAL : ℚ := 1 / 100000

/-- `is_inside_plane` of `pipeline.cpp` (lines 13–32): the per-vertex inside
test of each of the seven clip planes. -/
def is_inside_plane (clip_plane : Plane) (vertex : Vec4) : Bool :=
  match clip_plane with
  | .MINIMAL => decide (vertex.w ≤ -MINIMAL_VAL)
  | .RIGHT => decide (vertex.x ≥ vertex.w)
  | .LEFT => decide (vertex.x ≤ -vertex.w)
  | .TOP => decide (vertex.y ≥ vertex.w)
  | .BOTTOM => decide (vertex.y ≤ -vertex.w)
  | .NEAR => decide (vertex.z ≥ vertex.w)
  | .FAR => decide (vertex.z ≤ -vertex.w)

/-- Numerator of the intersection ratio of `get_intersect_ratio`
(`pipeline.cpp` lines 36–56), per plane. -/
def interNum (clip_plane : Plane) (prev : Vec4) : ℚ :=
  match clip_plane with
  | .MINIMAL => prev.w + MINIMAL_VAL
  | .RIGHT => prev.w - prev.x
  | .LEFT => prev.w + prev.x
  | .TOP => prev.w - prev.y
  | .BOTTOM => prev.w + prev.y
  | .NEAR => prev.w - prev.z
  | .FAR => prev.w + prev.z

/-- Denominator of the intersection ratio of `get_intersect_ratio`
(`pipeline.cpp` lines 36–56), per plane. -/
def interDen (clip_plane : Plane) (prev curv : Vec4) : ℚ :=
  match clip_plane with
  | .MINIMAL => prev.w - curv.w
  | .RIGHT => (prev.w - prev.x) - (curv.w - curv.x)
  | .LEFT => (prev.w + prev.x) - (curv.w + curv.x)
  | .TOP => (prev.w - prev.y) - (curv.w - curv.y)
  | .BOTTOM => (prev.w + prev.y) - (curv.w + curv.y)
  | .NEAR => (prev.w - prev.z) - (curv.w - curv.z)
  | .FAR => (prev.w + prev.z) - (curv.w + curv.z)

/-- `get_intersect_ratio` of `pipeline.cpp` (lines 36–56).  The C++ computes
the IEEE quotient `interNum / interDen`; here `ℚ` division is total
(value `0` at a zero denominator, where IEEE produces NaN), which agrees with
the source whenever the denominator is nonzero — in particular at every call
the clipper makes, see `interDen_ne_zero_of_inside_ne`. -/
def get_intersect_t (clip_plane : Plane) (prev curv : Vec4) : ℚ :=
  interNum clip_plane prev / interDen clip_plane prev curv

/-- The IEEE division of `get_intersect_ratio` with its partiality made
explicit: `none` models the NaN produced by a C++ division `0.0f/0.0f`
(or `x/0.0f`); `some` is the exact quotient otherwise.  The source contains
no branch that would replace the `0/0` case by a clamped value. -/
def get_intersect_checked (clip_plane : Plane) (prev curv : Vec4) : Option ℚ :=
  if interDen clip_plane prev curv = 0 then none
  else some (interNum clip_plane prev / interDen clip_plane prev curv)

/-! ## The spec's plane table (for the refinement claim C2) -/

/-- Written from the spec's plane table (§4.1): per-plane inside test. -/
def insideSpecTable (pl : Plane) (v : Vec4) : Bool :=
  match pl with
  | .MINIMAL => decide (v.w ≤ -MINIMAL_VAL)
  | .RIGHT => decide (v.x ≥ v.w)
  | .LEFT => decide (v.x ≤ -v.w)
  | .TOP => decide (v.y ≥ v.w)
  | .BOTTOM => decide (v.y ≤ -v.w)
  | .NEAR => decide (v.z ≥ v.w)
  | .FAR => decide (v.z ≤ -v.w)

/-- Written from the spec's plane table (§4.1): per-plane intersection ratio
`numerator / denominator` for the edge `(p, c)`. -/
def ratioSpecTable (pl : Plane) (p c : Vec4) : ℚ :=
  match pl with
  | .MINIMAL => (p.w + MINIMAL_VAL) / (p.w - c.w)
  | .RIGHT => (p.w - p.x) / ((p.w - p.x) - (c.w - c.x))
  | .LEFT => (p.w + p.x) / ((p.w + p.x) - (c.w + c.x))
  | .TOP => (p.w - p.y) / ((p.w - p.y) - (c.w - c.y))
  | .BOTTOM => (p.w + p.y) / ((p.w + p.y) - (c.w + c.y))
  | .NEAR => (p.w - p.z) / ((p.w - p.z) - (c.w - c.z))
  | .FAR => (p.w + p.z) / ((p.w + p.z) - (c.w + c.z))

/-! ## Affine functionals on clip space

Each of the seven inside tests is a half-space condition `g(v) ≤ 0` for an
affine functional `g`; this is the backbone of the clipper invariants. -/

/-- An affine functional on clip space: `a·x + b·y + c·z + d·w + e`. -/
structure Aff where
  a : ℚ
  b : ℚ
  c : ℚ
  d : ℚ
  e : ℚ

/-- Evaluation of an affine functional at a clip-space point. -/
def Aff.eval (g : Aff) (v : Vec4) : ℚ :=
  g.a * v.x + g.b * v.y + g.c * v.z + g.d * v.w + g.e

/-- The affine functional of each plane: the inside test is `eval ≤ 0`. -/
def planeF : Plane → Aff
  | .MINIMAL => ⟨0, 0, 0, 1, MINIMAL_VAL⟩
  | .RIGHT => ⟨-1, 0, 0, 1, 0⟩
  | .LEFT => ⟨1, 0, 0, 1, 0⟩
  | .TOP => ⟨0, -1, 0, 1, 0⟩
  | .BOTTOM => ⟨0, 1, 0, 1, 0⟩
  | .NEAR => ⟨0, 0, -1, 1, 0⟩
  | .FAR => ⟨0, 0, 1, 1, 0⟩

theorem is_inside_plane_eq_sign (pl : Plane) (v : Vec4) :
    is_inside_plane pl v = decide ((planeF pl).eval v ≤ 0) := by
  cases pl <;>
    simp only [is_inside_plane, planeF, Aff.eval, decide_eq_decide] <;>
    constructor <;> intro h <;> linarith

theorem interNum_eq (pl : Plane) (p : Vec4) :
    interNum pl p = (planeF pl).eval p := by
  cases pl <;> simp only [interNum, planeF, Aff.eval] <;> ring

theorem interDen_eq (pl : Plane) (p c : Vec4) :
    interDen pl p c = (planeF pl).eval p - (planeF pl).eval c := by
  cases pl <;> simp only [interDen, planeF, Aff.eval] <;> ring

/-- At every call site inside the clipper — the two endpoints of the edge lie
on different sides of the plane — the ratio's denominator is nonzero, hence
the `0/0` situation never arises in the pipeline. -/
theorem interDen_ne_zero_of_inside_ne (pl : Plane) (p c : Vec4)
    (h : is_inside_plane pl p ≠ is_inside_plane pl c) :
    interDen pl p c ≠ 0 := by
  rw [is_inside_plane_eq_sign, is_inside_plane_eq_sign] at h
  rw [interDen_eq]
  rcases le_or_lt ((planeF pl).eval p) 0 with hp | hp <;>
    rcases le_or_lt ((planeF pl).eval c) 0 with hc | hc
  · simp [hp, hc] at h
  · linarith
  · linarith
  · simp [not_le.mpr hp, not_le.mpr hc] at h

/-! ## The clipper (`clipWithPlane`, `homogeneous_clip`) -/

/-- One polygon vertex with its four parallel attribute streams: the entries
at one index of `clipped_coords`, `clipped_world_coords`, `clipped_normals`,
`clipped_uvs` of the `Payload`. -/
structure ClipVertex where
  coords : Vec4
  world_coords : Vec4
  normal : Vec3
  uv : Vec2
deriving DecidableEq, Repr

/-- The four parallel `vectorInterpolate` calls of `clipWithPlane`
(`pipeline.cpp` lines 92–96), all with the same ratio. -/
def cvLerp (a b : ClipVertex) (t : ℚ) : ClipVertex :=
  ⟨a.coords.lerp b.coords t, a.world_coords.lerp b.world_coords t,
   a.normal.lerp b.normal t, a.uv.lerp b.uv t⟩

/-- The output the loop body of `clipWithPlane` (`pipeline.cpp` lines 85–105)
appends for one edge `(v1, v2)`: the intersection point when the two
inside-nesses differ, then `v2` itself when `v2` is inside. -/
def edgeOut (pl : Plane) (v1 v2 : ClipVertex) : List ClipVertex :=
  (if is_inside_plane pl v1.coords ≠ is_inside_plane pl v2.coords then
     [cvLerp v1 v2 (get_intersect_t pl v1.coords v2.coords)]
   else []) ++
  (if is_inside_plane pl v2.coords then [v2] else [])

/-- `clipWithPlane` (`pipeline.cpp` lines 58–108) on the in-buffer polygon,
with the ping-pong buffer pair modelled as an input list and a returned
output list.  The C++ loop visits edges `(in[i], in[(i+1) % n])` for
`i = 0..n−1`, which is `l.zip (l.rotate 1)`. -/
def clipWithPlane (pl : Plane) (l : List ClipVertex) : List ClipVertex :=
  ((l.zip (l.rotate 1)).map fun pr => edgeOut pl pr.1 pr.2).flatten

/-- Folding `clipWithPlane` over a list of planes. -/
def clipPlanes : List Plane → List ClipVertex → List ClipVertex
  | [], l => l
  | pl :: rest, l => clipPlanes rest (clipWithPlane pl l)

/-- The plane order of `homogeneous_clip`, as the spec's §4.1 enumeration. -/
def planeOrder : List Plane :=
  [.MINIMAL, .RIGHT, .LEFT, .TOP, .BOTTOM, .NEAR, .FAR]

/-- `homogeneous_clip` (`pipeline.cpp` lines 110–119): clip the triangle
against the seven planes, `MINIMAL` first, `FAR` last. -/
def homogeneous_clip (l : List ClipVertex) : List ClipVertex :=
  clipWithPlane .FAR (clipWithPlane .NEAR (clipWithPlane .BOTTOM
    (clipWithPlane .TOP (clipWithPlane .LEFT (clipWithPlane .RIGHT
      (clipWithPlane .MINIMAL l))))))

/-- Claim C2: for each of the seven clip planes, evaluated in exactly the
order `{MINIMAL, RIGHT, LEFT, TOP, BOTTOM, NEAR, FAR}`, the clipper's
per-vertex inside test and the intersection ratio for an edge `(p, c)` are
exactly the expressions of the spec's plane table. -/
theorem clipper_plane_table_refines_spec :
    (∀ pl v, is_inside_plane pl v = insideSpecTable pl v) ∧
    (∀ pl p c, get_intersect_t pl p c = ratioSpecTable pl p c) ∧
    (∀ l, homogeneous_clip l = clipPlanes planeOrder l) := by
  refine ⟨fun pl v => ?_, fun pl p c => ?_, fun l => rfl⟩
  · cases pl <;> rfl
  · cases pl <;> rfl

/-! ## Sign-change counting on cyclic boolean sequences

The cardinality invariant of the clipper rests on counting, for a polygon and
a half-space, how often the inside-ness flips along the closed vertex ring. -/

/-- Zero-one indicator of two booleans differing. -/
def chg (a b : Bool) : ℕ := if a = b then 0 else 1

/-- Number of adjacent flips in a (non-cyclic) boolean list. -/
def changesLin : List Bool → ℕ
  | a :: b :: t => chg a b + changesLin (b :: t)
  | _ => 0

/-- Number of adjacent flips around the cycle (last element adjacent to the
first). -/
def cycChanges : List Bool → ℕ
  | [] => 0
  | h :: t => changesLin ((h :: t) ++ [h])

theorem chg_comm (a b : Bool) : chg a b = chg b a := by
  cases a <;> cases b <;> rfl

theorem chg_triangle (a b c : Bool) : chg a c ≤ chg a b + chg b c := by
  cases a <;> cases b <;> cases c <;> decide

theorem chg_mod_two (a b c : Bool) : (chg a b + chg b c) % 2 = chg a c % 2 := by
  cases a <;> cases b <;> cases c <;> decide

theorem changesLin_cons_cons (a b : Bool) (t : List Bool) :
    changesLin (a :: b :: t) = chg a b + changesLin (b :: t) := rfl

/-- Splitting a flip count at a shared interior element. -/
theorem changesLin_append_cons (u : List Bool) (x : Bool) (v : List Bool) :
    changesLin (u ++ x :: v) = changesLin (u ++ [x]) + changesLin (x :: v) := by
  induction u with
  | nil => simp [changesLin]
  | cons a u ih =>
    cases u with
    | nil => simp [changesLin_cons_cons, changesLin]
    | cons b u' =>
      simp only [List.cons_append, changesLin_cons_cons] at *
      omega

/-- Changing the last element costs at most the flip between old and new. -/
theorem changesLin_last_le (u : List Bool) (a b : Bool) :
    changesLin (u ++ [b]) ≤ changesLin (u ++ [a]) + chg a b := by
  induction u with
  | nil => simp [changesLin]
  | cons c u ih =>
    cases u with
    | nil =>
      simp only [List.cons_append, List.nil_append, changesLin_cons_cons,
        changesLin] at *
      have := chg_triangle c a b
      omega
    | cons d u' =>
      simp only [List.cons_append, changesLin_cons_cons] at *
      omega

/-- Deleting an interior element never increases the flip count. -/
theorem changesLin_delete_le (u : List Bool) (x : Bool) (v : List Bool) :
    changesLin (u ++ v) ≤ changesLin (u ++ x :: v) := by
  cases v with
  | nil =>
    rw [changesLin_append_cons]
    simp only [List.append_nil, changesLin]
    have h : changesLin u ≤ changesLin (u ++ [x]) := by
      induction u with
      | nil => simp [changesLin]
      | cons c u ihu =>
        cases u with
        | nil => simp [changesLin]
        | cons d u' =>
          simp only [List.cons_append, changesLin_cons_cons] at *
          omega
    omega
  | cons h t =>
    rw [changesLin_append_cons u x (h :: t), changesLin_append_cons u h t]
    have h2 : changesLin (x :: h :: t) = chg x h + changesLin (h :: t) := rfl
    have h3 := changesLin_last_le u x h
    omega

/-- The cyclic flip count is bounded by any anchored linear flip count. -/
theorem cycChanges_le_anchor (w : List Bool) (x : Bool) :
    cycChanges w ≤ changesLin (x :: (w ++ [x])) := by
  cases w with
  | nil => simp [cycChanges, changesLin]
  | cons h t =>
    show changesLin ((h :: t) ++ [h]) ≤ changesLin (x :: ((h :: t) ++ [x]))
    have h1 : changesLin (x :: ((h :: t) ++ [x])) =
        chg x h + changesLin ((h :: t) ++ [x]) := rfl
    have h2 := changesLin_last_le (h :: t) x h
    omega

/-- An anchored flip count has the parity of the flip between its endpoints. -/
theorem changesLin_parity (w : List Bool) (a b : Bool) :
    changesLin (a :: (w ++ [b])) % 2 = chg a b % 2 := by
  induction w generalizing a with
  | nil => simp [changesLin, chg]
  | cons c w ih =>
    have h1 : changesLin (a :: ((c :: w) ++ [b])) =
        chg a c + changesLin (c :: (w ++ [b])) := rfl
    have h2 := ih c
    have h3 := chg_mod_two a c b
    omega

/-- The cyclic flip count is even. -/
theorem cycChanges_even (w : List Bool) : cycChanges w % 2 = 0 := by
  cases w with
  | nil => rfl
  | cons h t =>
    have : cycChanges (h :: t) = changesLin (h :: (t ++ [h])) := by
      simp [cycChanges]
    rw [this]
    have := changesLin_parity t h h
    simp [chg] at this
    omega

/-- A list with no linear flips is constant. -/
theorem changesLin_eq_zero_all_eq (a : Bool) (w : List Bool)
    (h : changesLin (a :: w) = 0) : ∀ x ∈ w, x = a := by
  induction w generalizing a with
  | nil => simp
  | cons c w ih =>
    have h1 : changesLin (a :: c :: w) = chg a c + changesLin (c :: w) := rfl
    rw [h1] at h
    have hac : a = c := by
      by_contra hne
      have hone : chg a c = 1 := by simp [chg, hne]
      omega
    have h2 : changesLin (c :: w) = 0 := by
      have hzero : chg a c = 0 := by simp [chg, hac]
      omega
    intro x hx
    rcases List.mem_cons.mp hx with hx | hx
    · exact hx.trans hac.symm
    · exact (ih c h2 x hx).trans hac.symm

/-! ## Interpolation geometry -/

/-- Sign of an affine functional at a polygon vertex: `true` on the closed
inside half-space `eval ≤ 0`. -/
def signAt (g : Aff) (v : ClipVertex) : Bool := decide (g.eval v.coords ≤ 0)

/-- Signs of a functional along a vertex list. -/
def signsOf (g : Aff) (l : List ClipVertex) : List Bool := l.map (signAt g)

@[simp] theorem signsOf_nil (g : Aff) : signsOf g [] = [] := rfl

@[simp] theorem signsOf_cons (g : Aff) (a : ClipVertex) (l : List ClipVertex) :
    signsOf g (a :: l) = signAt g a :: signsOf g l := rfl

theorem signsOf_append (g : Aff) (u v : List ClipVertex) :
    signsOf g (u ++ v) = signsOf g u ++ signsOf g v := by
  simp [signsOf]

@[simp] theorem cvLerp_coords (a b : ClipVertex) (t : ℚ) :
    (cvLerp a b t).coords = a.coords.lerp b.coords t := rfl

/-- Affine functionals commute with linear interpolation. -/
theorem Aff.eval_lerp (g : Aff) (a b : Vec4) (t : ℚ) :
    g.eval (a.lerp b t) = g.eval a + t * (g.eval b - g.eval a) := by
  simp only [Aff.eval, Vec4.lerp]
  ring

/-- The clipper's intersection parameter lies in `[0, 1]` whenever the edge
endpoints are on different sides of the plane. -/
theorem ratio_mem_unit (pl : Plane) (p c : Vec4)
    (h : is_inside_plane pl p ≠ is_inside_plane pl c) :
    0 ≤ get_intersect_t pl p c ∧ get_intersect_t pl p c ≤ 1 := by
  rw [is_inside_plane_eq_sign, is_inside_plane_eq_sign] at h
  have hval : get_intersect_t pl p c =
      (planeF pl).eval p / ((planeF pl).eval p - (planeF pl).eval c) := by
    rw [get_intersect_t, interNum_eq, interDen_eq]
  rcases le_or_lt ((planeF pl).eval p) 0 with hp | hp <;>
    rcases le_or_lt ((planeF pl).eval c) 0 with hc | hc
  · simp [hp, hc] at h
  · have hden : (planeF pl).eval p - (planeF pl).eval c < 0 := by linarith
    rw [hval]
    constructor
    · rw [le_div_iff_of_neg hden]
      linarith
    · rw [div_le_iff_of_neg hden]
      linarith
  · have hden : 0 < (planeF pl).eval p - (planeF pl).eval c := by linarith
    rw [hval]
    constructor
    · exact div_nonneg (by linarith) (le_of_lt hden)
    · rw [div_le_one hden]
      linarith
  · simp [not_le.mpr hp, not_le.mpr hc] at h

/-- A convex combination of two points of the half-space `eval ≤ 0` stays in
the half-space. -/
theorem eval_lerp_nonpos (g : Aff) (a b : Vec4) (t : ℚ)
    (ht0 : 0 ≤ t) (ht1 : t ≤ 1)
    (ha : g.eval a ≤ 0) (hb : g.eval b ≤ 0) : g.eval (a.lerp b t) ≤ 0 := by
  rw [Aff.eval_lerp]
  nlinarith [mul_nonneg ht0 (by linarith : (0:ℚ) ≤ -g.eval b),
    mul_nonneg (by linarith : (0:ℚ) ≤ 1 - t)
      (by linarith : (0:ℚ) ≤ -g.eval a)]

/-- A convex combination of two points of the open half-space `0 < eval`
stays in the open half-space. -/
theorem eval_lerp_pos (g : Aff) (a b : Vec4) (t : ℚ)
    (ht0 : 0 ≤ t) (ht1 : t ≤ 1)
    (ha : 0 < g.eval a) (hb : 0 < g.eval b) : 0 < g.eval (a.lerp b t) := by
  rw [Aff.eval_lerp]
  rcases eq_or_lt_of_le ht0 with h0 | h0
  · rw [← h0]
    simpa using ha
  · nlinarith [mul_pos h0 hb,
      mul_nonneg (by linarith : (0:ℚ) ≤ 1 - t) (le_of_lt ha)]

/-- If the two endpoints have the same sign under `g`, so does any convex
combination of them. -/
theorem signAt_lerp_eq (g : Aff) (a c : ClipVertex) (t : ℚ)
    (ht0 : 0 ≤ t) (ht1 : t ≤ 1)
    (hs : signAt g a = signAt g c) : signAt g (cvLerp a c t) = signAt g a := by
  unfold signAt at hs ⊢
  have hiff := decide_eq_decide.mp hs
  rw [cvLerp_coords]
  rcases le_or_lt (g.eval a.coords) 0 with ha | ha
  · have hc : g.eval c.coords ≤ 0 := hiff.mp ha
    have hx := eval_lerp_nonpos g a.coords c.coords t ht0 ht1 ha hc
    simp [ha, hx]
  · have hc : 0 < g.eval c.coords := by
      by_contra hcc
      push_neg at hcc
      exact absurd (hiff.mpr hcc) (not_le.mpr ha)
    have hx := eval_lerp_pos g a.coords c.coords t ht0 ht1 ha hc
    simp [not_le.mpr ha, not_le.mpr hx]

/-! ## The edge walk of `clipWithPlane` as blocks -/

/-- The cyclic edge list `(l[i], l[(i+1) % n])` in a recursion-friendly form:
the second components walk one step ahead and wrap to `v0`. -/
def loopEdges (v0 : ClipVertex) : List ClipVertex → List (ClipVertex × ClipVertex)
  | [] => []
  | [a] => [(a, v0)]
  | a :: b :: t => (a, b) :: loopEdges v0 (b :: t)

theorem zip_rotate_eq_loopEdges (h : ClipVertex) (t : List ClipVertex) :
    (h :: t).zip ((h :: t).rotate 1) = loopEdges h (h :: t) := by
  have key : ∀ (rest : List ClipVertex) (a : ClipVertex),
      (a :: rest).zip (rest ++ [h]) = loopEdges h (a :: rest) := by
    intro rest
    induction rest with
    | nil => intro a; rfl
    | cons b t' ih =>
      intro a
      simp only [List.cons_append, List.zip_cons_cons, loopEdges]
      rw [← ih b]
  have hrot : (h :: t).rotate 1 = t ++ [h] := by
    rw [List.rotate_cons_succ, List.rotate_zero]
  rw [hrot]
  exact key t h

/-- `clipWithPlane` written over `loopEdges`. -/
def clipBlocks (pl : Plane) (v0 : ClipVertex) (l : List ClipVertex) :
    List ClipVertex :=
  ((loopEdges v0 l).map fun pr => edgeOut pl pr.1 pr.2).flatten

theorem clipWithPlane_eq_blocks (pl : Plane) (h : ClipVertex)
    (t : List ClipVertex) :
    clipWithPlane pl (h :: t) = clipBlocks pl h (h :: t) := by
  rw [clipWithPlane, clipBlocks, zip_rotate_eq_loopEdges]

/-- Threading the flip count through one boolean whose value is constrained
to agree with equal endpoints. -/
theorem chg_through (sa sx sc : Bool) (hbet : sa = sc → sx = sa) :
    chg sa sx + chg sx sc ≤ chg sa sc := by
  cases sa <;> cases sx <;> cases sc <;> simp_all [chg]

/-- Cost of one edge block: walking from the sign of `a` through the block's
signs to the sign of `c` flips at most once if the endpoint signs differ, and
never if they agree. -/
theorem block_cost (g : Aff) (pl : Plane) (a c : ClipVertex) :
    changesLin (signAt g a :: (signsOf g (edgeOut pl a c) ++ [signAt g c]))
      ≤ chg (signAt g a) (signAt g c) := by
  unfold edgeOut
  by_cases hd : is_inside_plane pl a.coords ≠ is_inside_plane pl c.coords
  · obtain ⟨ht0, ht1⟩ := ratio_mem_unit pl a.coords c.coords hd
    have hbet : signAt g a = signAt g c →
        signAt g (cvLerp a c (get_intersect_t pl a.coords c.coords)) =
          signAt g a := fun hs => signAt_lerp_eq g a c _ ht0 ht1 hs
    have hthrough := chg_through (signAt g a)
      (signAt g (cvLerp a c (get_intersect_t pl a.coords c.coords)))
      (signAt g c) hbet
    have hcc : chg (signAt g c) (signAt g c) = 0 := by simp [chg]
    by_cases hin : is_inside_plane pl c.coords = true
    · simp only [if_pos hd, if_pos hin, List.cons_append, List.nil_append,
        signsOf_cons, signsOf_nil, changesLin_cons_cons, changesLin]
      omega
    · simp only [if_pos hd, if_neg hin, List.append_nil, List.cons_append,
        List.nil_append, signsOf_cons, signsOf_nil, changesLin_cons_cons,
        changesLin]
      omega
  · by_cases hin : is_inside_plane pl c.coords = true
    · simp only [if_neg hd, if_pos hin, List.nil_append, signsOf_cons,
        signsOf_nil, changesLin_cons_cons, changesLin]
      simp [chg]
    · simp only [if_neg hd, if_neg hin, List.append_nil, List.nil_append,
        signsOf_nil, changesLin_cons_cons, changesLin]
      simp [chg]

@[simp] theorem changesLin_nil : changesLin [] = 0 := rfl

@[simp] theorem changesLin_singleton (a : Bool) : changesLin [a] = 0 := rfl

/-- Walking the whole edge loop: the concatenated block signs, anchored at
the start vertex's sign and closed at `v0`'s sign, flip at most as often as
the vertex signs themselves. -/
theorem walk_bound (g : Aff) (pl : Plane) (v0 : ClipVertex) :
    ∀ (rest : List ClipVertex) (a : ClipVertex),
      changesLin (signAt g a ::
        (signsOf g (((loopEdges v0 (a :: rest)).map
            fun pr => edgeOut pl pr.1 pr.2).flatten) ++ [signAt g v0]))
      ≤ changesLin (signAt g a :: (signsOf g rest ++ [signAt g v0])) := by
  intro rest
  induction rest with
  | nil =>
    intro a
    have h := block_cost g pl a v0
    simp only [loopEdges, List.map_cons, List.map_nil, List.flatten_cons,
      List.flatten_nil, List.append_nil, signsOf_nil, List.nil_append,
      changesLin_cons_cons, changesLin_singleton]
    omega
  | cons b t ih =>
    intro a
    simp only [loopEdges, List.map_cons, List.flatten_cons, signsOf_append,
      List.append_assoc]
    have hins := changesLin_delete_le
      (signAt g a :: signsOf g (edgeOut pl a b)) (signAt g b)
      (signsOf g (((loopEdges v0 (b :: t)).map
        fun pr => edgeOut pl pr.1 pr.2).flatten) ++ [signAt g v0])
    have hsplit := changesLin_append_cons
      (signAt g a :: signsOf g (edgeOut pl a b)) (signAt g b)
      (signsOf g (((loopEdges v0 (b :: t)).map
        fun pr => edgeOut pl pr.1 pr.2).flatten) ++ [signAt g v0])
    have hblock := block_cost g pl a b
    have hih := ih b
    simp only [List.cons_append] at hins hsplit
    have hrhs : changesLin (signAt g a :: (signsOf g (b :: t) ++ [signAt g v0]))
        = chg (signAt g a) (signAt g b)
          + changesLin (signAt g b :: (signsOf g t ++ [signAt g v0])) := by
      simp only [signsOf_cons, List.cons_append, changesLin_cons_cons]
    omega

/-- Clipping against one plane does not increase the cyclic flip count of any
affine functional's signs along the polygon. -/
theorem clip_cycChanges_le (g : Aff) (pl : Plane) (l : List ClipVertex) :
    cycChanges (signsOf g (clipWithPlane pl l)) ≤ cycChanges (signsOf g l) := by
  cases l with
  | nil =>
    simp [clipWithPlane, signsOf, cycChanges]
  | cons h t =>
    have h1 := cycChanges_le_anchor
      (signsOf g (clipWithPlane pl (h :: t))) (signAt g h)
    have h2 := walk_bound g pl h t h
    rw [clipWithPlane_eq_blocks, clipBlocks] at h1
    have h3 : cycChanges (signsOf g (h :: t))
        = changesLin (signAt g h :: (signsOf g t ++ [signAt g h])) := by
      simp only [signsOf_cons, cycChanges, List.cons_append]
    rw [clipWithPlane_eq_blocks, clipBlocks]
    omega

/-- The inside test lifted to polygon vertices. -/
def insideCV (pl : Plane) (v : ClipVertex) : Bool := is_inside_plane pl v.coords

theorem edgeOut_length (pl : Plane) (a c : ClipVertex) :
    (edgeOut pl a c).length =
      chg (insideCV pl a) (insideCV pl c)
        + (if insideCV pl c = true then 1 else 0) := by
  unfold edgeOut insideCV chg
  by_cases ha : is_inside_plane pl a.coords = true <;>
    by_cases hin : is_inside_plane pl c.coords = true <;>
      simp [ha, hin]

/-- Length accounting along the edge loop: one output vertex per inside
second endpoint, one per sign flip. -/
theorem walk_length (pl : Plane) (v0 : ClipVertex) :
    ∀ (rest : List ClipVertex) (a : ClipVertex),
      (((loopEdges v0 (a :: rest)).map
          fun pr => edgeOut pl pr.1 pr.2).flatten).length
        = (rest ++ [v0]).countP (insideCV pl)
          + changesLin (insideCV pl a :: (rest ++ [v0]).map (insideCV pl)) := by
  intro rest
  induction rest with
  | nil =>
    intro a
    simp only [loopEdges, List.map_cons, List.map_nil, List.flatten_cons,
      List.flatten_nil, List.append_nil, List.nil_append, List.countP_cons,
      List.countP_nil, changesLin_cons_cons, changesLin_singleton]
    have := edgeOut_length pl a v0
    by_cases hin : insideCV pl v0 = true <;> simp [hin] at this ⊢ <;> omega
  | cons b t ih =>
    intro a
    have hih := ih b
    simp only [loopEdges, List.map_cons, List.flatten_cons,
      List.length_append, List.cons_append, List.countP_cons, List.map_cons,
      changesLin_cons_cons] at hih ⊢
    have := edgeOut_length pl a b
    by_cases hin : insideCV pl b = true <;> simp [hin] at this hih ⊢ <;> omega

/-- The output length of one clipping pass equals the number of inside
vertices plus the cyclic flip count of the plane's inside signs. -/
theorem clip_length_eq (pl : Plane) (h : ClipVertex) (t : List ClipVertex) :
    (clipWithPlane pl (h :: t)).length =
      (h :: t).countP (insideCV pl)
        + cycChanges ((h :: t).map (insideCV pl)) := by
  rw [clipWithPlane_eq_blocks, clipBlocks]
  have hw := walk_length pl h t h
  have hcount : (t ++ [h]).countP (insideCV pl)
      = (h :: t).countP (insideCV pl) := by
    simp only [List.countP_append, List.countP_cons, List.countP_nil]
    omega
  have hcyc : cycChanges ((h :: t).map (insideCV pl))
      = changesLin (insideCV pl h :: (t ++ [h]).map (insideCV pl)) := by
    simp only [List.map_cons, List.map_append, List.map_nil, cycChanges,
      List.cons_append]
  omega

theorem map_insideCV_eq_signs (pl : Plane) (l : List ClipVertex) :
    l.map (insideCV pl) = signsOf (planeF pl) l := by
  induction l with
  | nil => rfl
  | cons a l ih =>
    simp only [List.map_cons, signsOf_cons, ih, List.cons.injEq, and_true]
    rw [insideCV, is_inside_plane_eq_sign, signAt]

/-- A constant boolean list has no flips. -/
theorem changesLin_const (a : Bool) (w : List Bool)
    (h : ∀ x ∈ w, x = a) : changesLin (a :: w) = 0 := by
  induction w generalizing a with
  | nil => rfl
  | cons b w ih =>
    have hb : b = a := h b (by simp)
    subst hb
    rw [changesLin_cons_cons, ih b (fun x hx => h x (by simp [hx]))]
    simp [chg]

theorem countP_lt_of_exists_false (p : ClipVertex → Bool) (l : List ClipVertex)
    (h : ∃ u ∈ l, p u = false) : l.countP p + 1 ≤ l.length := by
  obtain ⟨u, hu, hpu⟩ := h
  by_contra hcon
  push_neg at hcon
  have hle : l.countP p ≤ l.length := List.countP_le_length p
  have hkeq : l.countP p = l.length := by omega
  have htr := List.countP_eq_length.mp hkeq u hu
  rw [hpu] at htr
  exact absurd htr (by simp)

/-- One clipping pass preserves the two clipper invariants: every affine
functional flips at most twice around the polygon, and the vertex count is
`0` or between `3` and one more than before. -/
theorem clip_card_step (pl : Plane) (l : List ClipVertex) (m : ℕ)
    (hAC : ∀ g : Aff, cycChanges (signsOf g l) ≤ 2)
    (hlen : l = [] ∨ (3 ≤ l.length ∧ l.length ≤ m)) :
    (∀ g : Aff, cycChanges (signsOf g (clipWithPlane pl l)) ≤ 2) ∧
      (clipWithPlane pl l = [] ∨
        (3 ≤ (clipWithPlane pl l).length ∧
          (clipWithPlane pl l).length ≤ m + 1)) := by
  refine ⟨fun g => le_trans (clip_cycChanges_le g pl l) (hAC g), ?_⟩
  rcases hlen with rfl | ⟨h3, hm⟩
  · left
    rfl
  · cases l with
    | nil => simp at h3
    | cons h t =>
      have hlen2 := clip_length_eq pl h t
      have hc2 : cycChanges ((h :: t).map (insideCV pl)) ≤ 2 := by
        rw [map_insideCV_eq_signs]
        exact hAC (planeF pl)
      have heven := cycChanges_even ((h :: t).map (insideCV pl))
      have hkn : (h :: t).countP (insideCV pl) ≤ (h :: t).length :=
        List.countP_le_length _
      rcases Nat.eq_zero_or_pos (cycChanges ((h :: t).map (insideCV pl)))
        with hc0 | hcpos
      · have h0 : changesLin (insideCV pl h ::
            (t.map (insideCV pl) ++ [insideCV pl h])) = 0 := by
          simpa [cycChanges, List.map_cons] using hc0
        have hall : ∀ v ∈ t, insideCV pl v = insideCV pl h := fun v hv =>
          changesLin_eq_zero_all_eq _ _ h0 (insideCV pl v)
            (List.mem_append_left _ (List.mem_map_of_mem _ hv))
        by_cases hh : insideCV pl h = true
        · have hkeq : (h :: t).countP (insideCV pl) = (h :: t).length := by
            rw [List.countP_eq_length]
            intro v hv
            rcases List.mem_cons.mp hv with rfl | hv
            · exact hh
            · rw [hall v hv]
              exact hh
          right
          constructor <;> omega
        · have hkeq : (h :: t).countP (insideCV pl) = 0 := by
            rw [List.countP_eq_zero]
            intro v hv
            rcases List.mem_cons.mp hv with rfl | hv
            · exact hh
            · rw [hall v hv]
              exact hh
          left
          have hz : (clipWithPlane pl (h :: t)).length = 0 := by omega
          exact List.length_eq_zero.mp hz
      · have hdiff : ∃ v ∈ h :: t, insideCV pl v ≠ insideCV pl h := by
          by_contra hcon
          push_neg at hcon
          have hall : ∀ x ∈ t.map (insideCV pl) ++ [insideCV pl h],
              x = insideCV pl h := by
            intro x hx
            rcases List.mem_append.mp hx with hx | hx
            · rcases List.mem_map.mp hx with ⟨v, hv, rfl⟩
              exact hcon v (List.mem_cons_of_mem _ hv)
            · simpa using hx
          have hzero : cycChanges ((h :: t).map (insideCV pl)) = 0 := by
            simp only [List.map_cons, cycChanges, List.cons_append]
            exact changesLin_const _ _ (by simpa using hall)
          omega
        obtain ⟨v, hv, hvne⟩ := hdiff
        have hk1 : 1 ≤ (h :: t).countP (insideCV pl) := by
          by_cases hh : insideCV pl h = true
          · have hpos : 0 < (h :: t).countP (insideCV pl) :=
              List.countP_pos_iff.mpr ⟨h, List.mem_cons_self _ _, hh⟩
            omega
          · have hsh : insideCV pl h = false := by
              cases hy : insideCV pl h
              · rfl
              · exact absurd hy hh
            have hvt : insideCV pl v = true := by
              cases hx : insideCV pl v
              · rw [hx, hsh] at hvne
                exact absurd rfl hvne
              · rfl
            have hpos : 0 < (h :: t).countP (insideCV pl) :=
              List.countP_pos_iff.mpr ⟨v, hv, hvt⟩
            omega
        have hklt : (h :: t).countP (insideCV pl) + 1 ≤ (h :: t).length := by
          by_cases hh : insideCV pl h = true
          · have hvf : insideCV pl v = false := by
              cases hx : insideCV pl v
              · rfl
              · rw [hx, hh] at hvne
                exact absurd rfl hvne
            exact countP_lt_of_exists_false _ _ ⟨v, hv, hvf⟩
          · have hsh : insideCV pl h = false := by
              cases hy : insideCV pl h
              · rfl
              · exact absurd hy hh
            exact countP_lt_of_exists_false _ _ ⟨h, List.mem_cons_self _ _, hsh⟩
        right
        constructor <;> omega

theorem cycChanges_three_le_two (a b c : Bool) : cycChanges [a, b, c] ≤ 2 := by
  cases a <;> cases b <;> cases c <;> decide

/-- Claim C4: for every input triangle (3 vertices with attributes), the
vertex count returned after clipping against all seven planes is either `0`
or in the range `3` to `10` inclusive — never `1`, never `2`, and never more
than `10`. -/
theorem homogeneous_clip_cardinality (v0 v1 v2 : ClipVertex) :
    (homogeneous_clip [v0, v1, v2]).length = 0 ∨
      (3 ≤ (homogeneous_clip [v0, v1, v2]).length ∧
        (homogeneous_clip [v0, v1, v2]).length ≤ 10) := by
  have hAC0 : ∀ g : Aff, cycChanges (signsOf g [v0, v1, v2]) ≤ 2 := fun g =>
    cycChanges_three_le_two (signAt g v0) (signAt g v1) (signAt g v2)
  have hl0 : ([v0, v1, v2] : List ClipVertex) = [] ∨
      (3 ≤ ([v0, v1, v2] : List ClipVertex).length ∧
        ([v0, v1, v2] : List ClipVertex).length ≤ 3) := by
    right
    simp
  have s1 := clip_card_step .MINIMAL [v0, v1, v2] 3 hAC0 hl0
  have s2 := clip_card_step .RIGHT _ 4 s1.1 s1.2
  have s3 := clip_card_step .LEFT _ 5 s2.1 s2.2
  have s4 := clip_card_step .TOP _ 6 s3.1 s3.2
  have s5 := clip_card_step .BOTTOM _ 7 s4.1 s4.2
  have s6 := clip_card_step .NEAR _ 8 s5.1 s5.2
  have s7 := clip_card_step .FAR _ 9 s6.1 s6.2
  have hdef : homogeneous_clip [v0, v1, v2]
      = clipWithPlane .FAR (clipWithPlane .NEAR (clipWithPlane .BOTTOM
          (clipWithPlane .TOP (clipWithPlane .LEFT (clipWithPlane .RIGHT
            (clipWithPlane .MINIMAL [v0, v1, v2])))))) := rfl
  rw [hdef]
  rcases s7.2 with he | hb
  · left
    rw [he]
    rfl
  · right
    exact hb

/-- The interpolated intersection point lies exactly on the clipping plane. -/
theorem eval_at_intersection (pl : Plane) (p c : Vec4)
    (hden : interDen pl p c ≠ 0) :
    (planeF pl).eval (p.lerp c (get_intersect_t pl p c)) = 0 := by
  rw [Aff.eval_lerp, get_intersect_t, interNum_eq, interDen_eq]
  rw [interDen_eq] at hden
  field_simp
  ring

/-- Every vertex output by one clipping pass is inside the plane it was
clipped against. -/
theorem mem_clipWithPlane_inside_self (pl : Plane) (l : List ClipVertex) :
    ∀ q ∈ clipWithPlane pl l, is_inside_plane pl q.coords = true := by
  intro q hq
  rw [clipWithPlane] at hq
  rcases List.mem_flatten.mp hq with ⟨blk, hblk, hqb⟩
  rcases List.mem_map.mp hblk with ⟨pr, hpr, rfl⟩
  unfold edgeOut at hqb
  rcases List.mem_append.mp hqb with hq1 | hq2
  · by_cases hd : is_inside_plane pl pr.1.coords ≠ is_inside_plane pl pr.2.coords
    · rw [if_pos hd] at hq1
      have hqx := List.mem_singleton.mp hq1
      subst hqx
      have hden := interDen_ne_zero_of_inside_ne pl pr.1.coords pr.2.coords hd
      have hzero := eval_at_intersection pl pr.1.coords pr.2.coords hden
      rw [is_inside_plane_eq_sign, cvLerp_coords, hzero]
      simp
    · rw [if_neg hd] at hq1
      simp at hq1
  · by_cases hin : is_inside_plane pl pr.2.coords = true
    · rw [if_pos hin] at hq2
      have hqx := List.mem_singleton.mp hq2
      subst hqx
      exact hin
    · rw [if_neg hin] at hq2
      simp at hq2

/-- One clipping pass keeps the polygon inside any plane it already was
inside of. -/
theorem mem_clipWithPlane_preserve (pl pl' : Plane) (l : List ClipVertex)
    (hall : ∀ p ∈ l, is_inside_plane pl' p.coords = true) :
    ∀ q ∈ clipWithPlane pl l, is_inside_plane pl' q.coords = true := by
  intro q hq
  rw [clipWithPlane] at hq
  rcases List.mem_flatten.mp hq with ⟨blk, hblk, hqb⟩
  rcases List.mem_map.mp hblk with ⟨pr, hpr, rfl⟩
  have hp1 : pr.1 ∈ l := (List.of_mem_zip hpr).1
  have hp2 : pr.2 ∈ l := by
    have := (List.of_mem_zip hpr).2
    exact (List.mem_rotate).mp this
  unfold edgeOut at hqb
  rcases List.mem_append.mp hqb with hq1 | hq2
  · by_cases hd : is_inside_plane pl pr.1.coords ≠ is_inside_plane pl pr.2.coords
    · rw [if_pos hd] at hq1
      have hqx := List.mem_singleton.mp hq1
      subst hqx
      obtain ⟨ht0, ht1⟩ := ratio_mem_unit pl pr.1.coords pr.2.coords hd
      have h1 : (planeF pl').eval pr.1.coords ≤ 0 := by
        have := hall pr.1 hp1
        rw [is_inside_plane_eq_sign] at this
        exact of_decide_eq_true this
      have h2 : (planeF pl').eval pr.2.coords ≤ 0 := by
        have := hall pr.2 hp2
        rw [is_inside_plane_eq_sign] at this
        exact of_decide_eq_true this
      have hx := eval_lerp_nonpos (planeF pl') pr.1.coords pr.2.coords _
        ht0 ht1 h1 h2
      rw [is_inside_plane_eq_sign, cvLerp_coords]
      exact decide_eq_true hx
    · rw [if_neg hd] at hq1
      simp at hq1
  · by_cases hin : is_inside_plane pl pr.2.coords = true
    · rw [if_pos hin] at hq2
      have hqx := List.mem_singleton.mp hq2
      subst hqx
      exact hall pr.2 hp2
    · rw [if_neg hin] at hq2
      simp at hq2

theorem clipPlanes_preserve (pls : List Plane) (pl' : Plane) :
    ∀ (l : List ClipVertex),
      (∀ p ∈ l, is_inside_plane pl' p.coords = true) →
      ∀ q ∈ clipPlanes pls l, is_inside_plane pl' q.coords = true := by
  induction pls with
  | nil =>
    intro l h q hq
    exact h q hq
  | cons pl pls ih =>
    intro l h q hq
    exact ih _ (mem_clipWithPlane_preserve pl pl' l h) q hq

theorem clipPlanes_containment (pls : List Plane) :
    ∀ (l : List ClipVertex) (pl : Plane), pl ∈ pls →
      ∀ q ∈ clipPlanes pls l, is_inside_plane pl q.coords = true := by
  induction pls with
  | nil =>
    intro l pl h
    simp at h
  | cons pl0 pls ih =>
    intro l pl hmem q hq
    rcases List.mem_cons.mp hmem with rfl | hmem
    · exact clipPlanes_preserve pls pl _
        (mem_clipWithPlane_inside_self pl l) q hq
    · exact ih _ pl hmem q hq

/-- Claim C5: every clip-space position in the polygon output by the
seven-plane clip satisfies the inside test of every one of the seven planes. -/
theorem homogeneous_clip_containment (v0 v1 v2 : ClipVertex) (pl : Plane)
    (q : ClipVertex) (hq : q ∈ homogeneous_clip [v0, v1, v2]) :
    is_inside_plane pl q.coords = true := by
  have horder : homogeneous_clip [v0, v1, v2]
      = clipPlanes planeOrder [v0, v1, v2] := rfl
  have hmem : pl ∈ planeOrder := by
    cases pl <;> simp [planeOrder]
  exact clipPlanes_containment planeOrder [v0, v1, v2] pl hmem q (horder ▸ hq)

/-! ## Concrete clipper scenarios -/

/-- A polygon vertex with given clip-space position and zeroed attributes. -/
def posCV (v : Vec4) : ClipVertex := ⟨v, ⟨0, 0, 0, 0⟩, ⟨0, 0, 0⟩, ⟨0, 0⟩⟩

/-- First vertex of the spec's scenario S1. -/
def s1v0 : ClipVertex := posCV ⟨-1/2, -1/2, 0, 1⟩

/-- Second vertex of the spec's scenario S1. -/
def s1v1 : ClipVertex := posCV ⟨1/2, -1/2, 0, 1⟩

/-- Third vertex of the spec's scenario S1. -/
def s1v2 : ClipVertex := posCV ⟨0, 1/2, 0, 1⟩

/-- The S1 triangle has `w = 1` at every vertex, so every vertex fails the
`MINIMAL` test `w ≤ −ε` and the very first pass empties the polygon. -/
theorem s1_clip_eq_nil : homogeneous_clip [s1v0, s1v1, s1v2] = [] := by
  have h1 : clipWithPlane .MINIMAL [s1v0, s1v1, s1v2] = [] := by
    norm_num [clipWithPlane, edgeOut, is_inside_plane, List.rotate,
      s1v0, s1v1, s1v2, posCV, MINIMAL_VAL]
  show clipWithPlane .FAR (clipWithPlane .NEAR (clipWithPlane .BOTTOM
    (clipWithPlane .TOP (clipWithPlane .LEFT (clipWithPlane .RIGHT
      (clipWithPlane .MINIMAL [s1v0, s1v1, s1v2])))))) = []
  rw [h1]
  rfl

/-- The S1 vertices with `w = −1` instead: inside all seven planes. -/
def s1n0 : ClipVertex := posCV ⟨-1/2, -1/2, 0, -1⟩

/-- Second vertex of the negated-w S1 triangle. -/
def s1n1 : ClipVertex := posCV ⟨1/2, -1/2, 0, -1⟩

/-- Third vertex of the negated-w S1 triangle. -/
def s1n2 : ClipVertex := posCV ⟨0, 1/2, 0, -1⟩

/-- The all-inside triangle survives all seven passes; each pass advances the
ring by one position, so seven passes rotate the vertex list by one. -/
theorem s1n_clip_eq :
    homogeneous_clip [s1n0, s1n1, s1n2] = [s1n1, s1n2, s1n0] := by
  norm_num [homogeneous_clip, clipWithPlane, edgeOut, is_inside_plane,
    List.rotate, s1n0, s1n1, s1n2, posCV, MINIMAL_VAL]

/-- Claim C3 counterexample: for the spec's S1 triangle (clip-space `w = 1`
at all three vertices) the clipper does not return 3 vertices — the `MINIMAL`
pass `w ≤ −ε` already rejects every vertex, so the output is empty. -/
theorem clip_S1_not_three :
    ¬ ((homogeneous_clip [s1v0, s1v1, s1v2]).length = 3 ∧
        homogeneous_clip [s1v0, s1v1, s1v2] = [s1v0, s1v1, s1v2]) := by
  rw [s1_clip_eq_nil]
  simp

/-- Claim C3 (amended): for the input triangle with clip-space vertices
`(−0.5, −0.5, 0, 1)`, `(0.5, −0.5, 0, 1)`, `(0, 0.5, 0, 1)`, running the
clipper against all seven planes returns a count of `0` and an empty output
polygon: every vertex has `w = 1` and so fails the `MINIMAL` inside test
`w ≤ −ε`. -/
theorem clip_S1_returns_empty :
    homogeneous_clip [s1v0, s1v1, s1v2] = [] ∧
      (homogeneous_clip [s1v0, s1v1, s1v2]).length = 0 := by
  refine ⟨s1_clip_eq_nil, ?_⟩
  rw [s1_clip_eq_nil]
  rfl

/-- The two vertices used in the C8 counterexample: both exactly on the
`MINIMAL` plane `w = −ε`. -/
def c8v : Vec4 := ⟨0, 0, 0, -MINIMAL_VAL⟩

/-- Claim C8 counterexample: at the edge `(c8v, c8v)` against `MINIMAL`, the
table's numerator and denominator are both zero, yet the computed ratio is
not a clamped `0` — the code divides unconditionally, and the IEEE `0/0`
produces NaN (modelled as `none`); no clamping branch exists in
`get_intersect_ratio`. -/
theorem get_intersect_zero_zero_not_clamped :
    interNum .MINIMAL c8v = 0 ∧ interDen .MINIMAL c8v c8v = 0 ∧
      get_intersect_checked .MINIMAL c8v c8v ≠ some 0 := by
  refine ⟨?_, ?_, ?_⟩
  · norm_num [interNum, c8v, MINIMAL_VAL]
  · norm_num [interDen, c8v]
  · have hnone : get_intersect_checked .MINIMAL c8v c8v = none := by
      norm_num [get_intersect_checked, interDen, c8v]
    rw [hnone]
    exact fun h => Option.noConfusion h

/-- Claim C8 (amended): `get_intersect_ratio` contains no clamp: with a zero
denominator the IEEE division returns no numeric value (NaN, `none` in the
checked model) — in particular `0/0` is not turned into `0`; however, at
every call site of the clipper (edge endpoints on different sides of the
plane) the denominator is provably nonzero, so the intersection formula never
executes a `0/0` division in the pipeline. -/
theorem get_intersect_no_zero_div_at_call_sites :
    (∀ (pl : Plane) (p c : Vec4), interDen pl p c = 0 →
        get_intersect_checked pl p c = none) ∧
    (∀ (pl : Plane) (p c : Vec4),
        is_inside_plane pl p ≠ is_inside_plane pl c →
        interDen pl p c ≠ 0 ∧
          get_intersect_checked pl p c = some (get_intersect_t pl p c)) := by
  constructor
  · intro pl p c h
    rw [get_intersect_checked, if_pos h]
  · intro pl p c h
    have hden := interDen_ne_zero_of_inside_ne pl p c h
    exact ⟨hden, by rw [get_intersect_checked, if_neg hden, get_intersect_t]⟩

theorem c8_den_eq_zero : interDen .MINIMAL c8v c8v = 0 := by
  norm_num [interDen, c8v]

theorem c8_inside_ne :
    is_inside_plane .MINIMAL ⟨0, 0, 0, -1⟩ ≠ is_inside_plane .MINIMAL ⟨0, 0, 0, 1⟩ := by
  norm_num [is_inside_plane, MINIMAL_VAL]

/-- Witness for the amended C8 theorem at concrete inputs. -/
theorem get_intersect_no_zero_div_witness :
    get_intersect_checked .MINIMAL c8v c8v = none ∧
      interDen .MINIMAL ⟨0, 0, 0, -1⟩ ⟨0, 0, 0, 1⟩ ≠ 0 := by
  exact ⟨get_intersect_no_zero_div_at_call_sites.1 .MINIMAL c8v c8v c8_den_eq_zero,
    (get_intersect_no_zero_div_at_call_sites.2 .MINIMAL ⟨0, 0, 0, -1⟩ ⟨0, 0, 0, 1⟩
      c8_inside_ne).1⟩

/-! ## The rasterizer (`Pipeline::rasterize`, `Pipeline::setColor`) -/

/-- Truncation toward zero: the C++ `(int)` cast applied to a float value. -/
def truncZ (q : ℚ) : ℤ := if 0 ≤ q then ⌊q⌋ else ⌈q⌉

/-- The render-target state owned by the `Pipeline`: the depth buffer
(`zbuffer`, floats indexed by `y·width + x`) and the color buffer
(`framebuffer`, bytes).  Both are modelled as total functions on the C++
`int` index, values at out-of-range indices being irrelevant. -/
structure RState where
  zbuffer : ℤ → ℚ
  framebuffer : ℤ → ℕ

/-- The C++ float→`uint8_t` conversion performed by the assignments in
`setColor`: truncation, exact for the of-range-clamped values the rasterizer
passes in (out-of-range conversions are UB in C++ and irrelevant here). -/
def byteOfRat (q : ℚ) : ℕ := ⌊q⌋.toNat % 256

/-- `Pipeline::setColor` (`pipeline.cpp` lines 223–229): at
`index = ((height − y − 1)·width + x)·4` store `color[2]` (B), `color[1]`
(G), `color[0]` (R) at offsets `+0, +1, +2`; the byte at `+3` is never
assigned. -/
def setColor (framebuffer : ℤ → ℕ) (width height : ℤ) (x y : ℤ)
    (color : Vec3) : ℤ → ℕ :=
  fun i =>
    if i = ((height - y - 1) * width + x) * 4 + 2 then byteOfRat color.x
    else if i = ((height - y - 1) * width + x) * 4 + 1 then byteOfRat color.y
    else if i = ((height - y - 1) * width + x) * 4 then byteOfRat color.z
    else framebuffer i

/-- `computeBarycentricCoords2D` (`pipeline.cpp` lines 165–171). -/
def computeBarycentricCoords2D (x y : ℚ) (v0 v1 v2 : Vec3) : ℚ × ℚ × ℚ :=
  let alpha := (x * (v1.y - v2.y) + (v2.x - v1.x) * y
      + v1.x * v2.y - v2.x * v1.y) /
    (v0.x * (v1.y - v2.y) + (v2.x - v1.x) * v0.y
      + v1.x * v2.y - v2.x * v1.y)
  let beta := (x * (v2.y - v0.y) + (v0.x - v2.x) * y
      + v2.x * v0.y - v0.x * v2.y) /
    (v1.x * (v2.y - v0.y) + (v0.x - v2.x) * v1.y
      + v2.x * v0.y - v0.x * v2.y)
  (alpha, beta, 1 - alpha - beta)

/-- `inside_triangle` (`pipeline.cpp` lines 173–175). -/
def inside_triangle (alpha beta gamma : ℚ) : Bool :=
  decide (alpha > 0) && decide (beta > 0) && decide (gamma > 0)

/-- The channel clamp loop of `Pipeline::rasterize` (lines 213–215):
`color[i] = max(0.f, min(255.f, color[i]))`. -/
def clampColor (c : Vec3) : Vec3 :=
  ⟨max 0 (min 255 c.x), max 0 (min 255 c.y), max 0 (min 255 c.z)⟩

/-- Screen mapping of `Pipeline::rasterize` (lines 180–184). -/
def screenMap (width height : ℤ) (h : Vec4) : Vec3 :=
  ⟨(1/2) * ((width : ℚ) - 1) * (h.x / h.w + 1),
   (1/2) * ((height : ℚ) - 1) * (h.y / h.w + 1),
   -h.w⟩

/-- Loop body of the bounding-box traversal of `Pipeline::rasterize`
(lines 202–219) at pixel `(x, y)`: sample the barycentric weights at the
pixel center, test coverage, then depth, then write. -/
def pixelStep (frag : ℚ → ℚ → ℚ → ℚ → Vec3) (width height : ℤ)
    (sp0 sp1 sp2 : Vec3) (h0 h1 h2 : Vec4) (st : RState) (x y : ℤ) : RState :=
  let b := computeBarycentricCoords2D ((x : ℚ) + 1/2) ((y : ℚ) + 1/2)
    sp0 sp1 sp2
  if inside_triangle b.1 b.2.1 b.2.2 then
    let index := y * width + x
    let corrector := 1 / (b.1 / h0.w + b.2.1 / h1.w + b.2.2 / h2.w)
    let z := -corrector
    if st.zbuffer index > z then
      ⟨fun i => if i = index then z else st.zbuffer i,
       setColor st.framebuffer width height x y
         (clampColor (frag b.1 b.2.1 b.2.2 corrector))⟩
    else st
  else st

/-- Inclusive integer range `[a, b]`, the pixels a C++
`for (i = a; i <= b; i++)` loop visits. -/
def intRange (a b : ℤ) : List ℤ :=
  (List.range (b + 1 - a).toNat).map fun k => a + k

/-- `Pipeline::rasterize` (`pipeline.cpp` lines 177–221): screen mapping,
bounding box (note the `(int)` truncations and `std::ceil`), then the
row-major pixel traversal folding `pixelStep`. -/
def rasterize (frag : ℚ → ℚ → ℚ → ℚ → Vec3) (width height : ℤ)
    (h0 h1 h2 : Vec4) (st : RState) : RState :=
  let sp0 := screenMap width height h0
  let sp1 := screenMap width height h1
  let sp2 := screenMap width height h2
  let x_max := max (max (max 0 ⌈sp0.x⌉) ⌈sp1.x⌉) ⌈sp2.x⌉
  let x_min := min (min (min width (truncZ sp0.x)) (truncZ sp1.x))
    (truncZ sp2.x)
  let y_max := max (max (max 0 ⌈sp0.y⌉) ⌈sp1.y⌉) ⌈sp2.y⌉
  let y_min := min (min (min height (truncZ sp0.y)) (truncZ sp1.y))
    (truncZ sp2.y)
  (intRange y_min y_max).foldl
    (fun s y => (intRange x_min x_max).foldl
      (fun s2 x => pixelStep frag width height sp0 sp1 sp2 h0 h1 h2 s2 x y) s)
    st

/-- Bridge between the code's boolean coverage test and its proposition. -/
theorem inside_triangle_iff (a b c : ℚ) :
    inside_triangle a b c = true ↔ (0 < a ∧ 0 < b ∧ 0 < c) := by
  simp [inside_triangle, and_assoc]

theorem ite_nest_bool (b : Bool) (P Q : Prop) [Decidable P] [Decidable Q]
    (hb : b = true ↔ P) (A s : RState) :
    (if b then (if Q then A else s) else s) = (if P ∧ Q then A else s) := by
  cases b with
  | false =>
    have hP : ¬ P := fun hp => by simpa using hb.mpr hp
    simp [hP]
  | true =>
    have hP : P := hb.mp rfl
    by_cases hq : Q <;> simp [hP, hq]

/-- Claim C1: for every pixel `(x, y)` visited by the bounding-box traversal
of `rasterize` — which folds `pixelStep` over the box row by row — a fragment
is written if and only if all three barycentric weights computed at the pixel
center `(x + 0.5, y + 0.5)` are strictly positive and the stored depth at the
pixel strictly exceeds `z = −corrector` with
`corrector = 1/(α/w0 + β/w1 + γ/w2)`; on acceptance the depth entry is set to
`z` and the fragment shader is invoked with `(α, β, γ, corrector)`, each
channel of its result being clamped to `[0, 255]` before the `setColor`
write. -/
theorem rasterize_fragment_rule (frag : ℚ → ℚ → ℚ → ℚ → Vec3)
    (width height : ℤ) (sp0 sp1 sp2 : Vec3) (h0 h1 h2 : Vec4)
    (st : RState) (x y : ℤ) :
    pixelStep frag width height sp0 sp1 sp2 h0 h1 h2 st x y =
      (let b := computeBarycentricCoords2D ((x : ℚ) + 1/2) ((y : ℚ) + 1/2)
        sp0 sp1 sp2
       let corrector := 1 / (b.1 / h0.w + b.2.1 / h1.w + b.2.2 / h2.w)
       let z := -corrector
       if (0 < b.1 ∧ 0 < b.2.1 ∧ 0 < b.2.2) ∧
           st.zbuffer (y * width + x) > z then
         ⟨fun i => if i = y * width + x then z
             else st.zbuffer i,
          setColor st.framebuffer width height x y
            (clampColor (frag b.1 b.2.1 b.2.2 corrector))⟩
       else st) := by
  simp only [pixelStep]
  rw [ite_nest_bool _ _ _ (inside_triangle_iff _ _ _)]

/-- Claim C7: for every in-bounds pixel `(x, y)` and color `(R, G, B)`,
`setColor` stores the bytes `B`, `G`, `R` at framebuffer offsets
`base + 0, 1, 2` with `base = ((height − y − 1)·width + x)·4`, never writes
the fourth byte `base + 3`, and leaves every other framebuffer byte
unchanged. -/
theorem setColor_layout (fb : ℤ → ℕ) (width height x y : ℤ) (c : Vec3)
    (hx0 : 0 ≤ x) (hx1 : x < width) (hy0 : 0 ≤ y) (hy1 : y < height) :
    setColor fb width height x y c (((height - y - 1) * width + x) * 4)
        = byteOfRat c.z ∧
      setColor fb width height x y c (((height - y - 1) * width + x) * 4 + 1)
        = byteOfRat c.y ∧
      setColor fb width height x y c (((height - y - 1) * width + x) * 4 + 2)
        = byteOfRat c.x ∧
      setColor fb width height x y c (((height - y - 1) * width + x) * 4 + 3)
        = fb (((height - y - 1) * width + x) * 4 + 3) ∧
      ∀ i : ℤ, i ≠ ((height - y - 1) * width + x) * 4 →
        i ≠ ((height - y - 1) * width + x) * 4 + 1 →
        i ≠ ((height - y - 1) * width + x) * 4 + 2 →
        setColor fb width height x y c i = fb i := by
  unfold setColor
  refine ⟨?_, ?_, ?_, ?_, ?_⟩
  · rw [if_neg (by omega), if_neg (by omega), if_pos rfl]
  · rw [if_neg (by omega), if_pos rfl]
  · rw [if_pos rfl]
  · rw [if_neg (by omega), if_neg (by omega), if_neg (by omega)]
  · intro i h0 h1 h2
    rw [if_neg h2, if_neg h1, if_neg h0]

/-- Witness for C7 at a concrete in-bounds pixel. -/
theorem setColor_layout_witness :
    setColor (fun _ => 0) 2 2 0 1 ⟨10, 20, 30⟩
        ((((2:ℤ) - 1 - 1) * 2 + 0) * 4) = byteOfRat 30 ∧
      setColor (fun _ => 0) 2 2 0 1 ⟨10, 20, 30⟩
        ((((2:ℤ) - 1 - 1) * 2 + 0) * 4 + 1) = byteOfRat 20 ∧
      setColor (fun _ => 0) 2 2 0 1 ⟨10, 20, 30⟩
        ((((2:ℤ) - 1 - 1) * 2 + 0) * 4 + 2) = byteOfRat 10 ∧
      setColor (fun _ => 0) 2 2 0 1 ⟨10, 20, 30⟩
        ((((2:ℤ) - 1 - 1) * 2 + 0) * 4 + 3)
        = (fun _ => 0 : ℤ → ℕ) ((((2:ℤ) - 1 - 1) * 2 + 0) * 4 + 3) ∧
      ∀ i : ℤ, i ≠ (((2:ℤ) - 1 - 1) * 2 + 0) * 4 →
        i ≠ (((2:ℤ) - 1 - 1) * 2 + 0) * 4 + 1 →
        i ≠ (((2:ℤ) - 1 - 1) * 2 + 0) * 4 + 2 →
        setColor (fun _ => 0) 2 2 0 1 ⟨10, 20, 30⟩ i
          = (fun _ => 0 : ℤ → ℕ) i :=
  setColor_layout (fun _ => 0) 2 2 0 1 ⟨10, 20, 30⟩
    (by decide) (by decide) (by decide) (by decide)

/-! ## The pipeline driver (`Pipeline::renderingTriangles`) -/

/-- Default vertex for `getD` lookups (the C++ buffers are preallocated, so
reads at unused indices return unspecified but existing storage). -/
def defaultCV : ClipVertex := posCV ⟨0, 0, 0, 0⟩

/-- The per-face body of `Pipeline::renderingTriangles` (`pipeline.cpp`
lines 147–162): run the seven-plane clip on the face's three prepared
vertices, then fan-triangulate, producing the sequence of vertex triples the
driver hands to `prepareVertex`/`rasterize` — one list entry per rasterizer
invocation, in loop order `j = 1, …, vertex_num − 2`, each the sub-triangle
`(0, j, j+1)` of the clipped polygon. -/
def renderFace (v0 v1 v2 : ClipVertex) :
    List (ClipVertex × ClipVertex × ClipVertex) :=
  let poly := homogeneous_clip [v0, v1, v2]
  (List.range' 1 (poly.length - 2)).map fun j =>
    (poly.getD 0 defaultCV, poly.getD j defaultCV, poly.getD (j+1) defaultCV)

/-- Claim C6: for every face whose clipped polygon has `n` vertices, the
driver fan-triangulates it as sub-triangles `(0, j, j+1)` for
`j = 1, …, n − 2` (the spec's `j ∈ [1, n−1)`), invoking the rasterizer
exactly once per sub-triangle — `n − 2` times — and zero times when `n < 3`,
in which case the face contributes nothing. -/
theorem renderFace_fan (v0 v1 v2 : ClipVertex) :
    (renderFace v0 v1 v2).length
        = (homogeneous_clip [v0, v1, v2]).length - 2 ∧
      ((homogeneous_clip [v0, v1, v2]).length < 3 →
        renderFace v0 v1 v2 = []) ∧
      ∀ (k : ℕ) (hk : k < (renderFace v0 v1 v2).length),
        (renderFace v0 v1 v2).get ⟨k, hk⟩ =
          ((homogeneous_clip [v0, v1, v2]).getD 0 defaultCV,
           (homogeneous_clip [v0, v1, v2]).getD (k + 1) defaultCV,
           (homogeneous_clip [v0, v1, v2]).getD (k + 2) defaultCV) := by
  refine ⟨by simp [renderFace], ?_, ?_⟩
  · intro hlt
    have h2 : (homogeneous_clip [v0, v1, v2]).length - 2 = 0 := by omega
    simp [renderFace, h2]
  · intro k hk
    simp only [renderFace, List.get_eq_getElem, List.getElem_map]
    rw [List.getElem_range'_1]
    have h1 : 1 + k = k + 1 := by omega
    have h2 : k + 1 + 1 = k + 2 := by omega
    rw [h1, h2]

theorem s1_clip_len_lt : (homogeneous_clip [s1v0, s1v1, s1v2]).length < 3 := by
  rw [s1_clip_eq_nil]
  decide

/-- Witness for C6: at the S1 face the clipped polygon has fewer than 3
vertices and the face contributes no rasterizer invocation. -/
theorem renderFace_fan_witness :
    (homogeneous_clip [s1v0, s1v1, s1v2]).length < 3 ∧
      renderFace s1v0 s1v1 s1v2 = [] :=
  ⟨s1_clip_len_lt, (renderFace_fan s1v0 s1v1 s1v2).2.1 s1_clip_len_lt⟩

/-- The `for (i = begin; i < end; i += interval)` face loop of
`Pipeline::renderingTriangles` (`pipeline.cpp` line 147), with explicit
fuel: one fuel unit per iteration, returning the processed face indices in
order.  The loop body is total and does not influence control flow, so the
index progression alone decides termination; `none` for every fuel value is
nontermination. -/
def renderingTrianglesIter (fuel : ℕ) (i e interval : ℤ) : Option (List ℤ) :=
  match fuel with
  | 0 => if i < e then none else some []
  | fuel + 1 =>
    if i < e then
      (renderingTrianglesIter fuel (i + interval) e interval).map
        fun l => i :: l
    else some []

/-- Claim C10: `renderingTriangles(begin, end, interval, model, shader)`
terminates whenever `interval ≥ 1` (some finite fuel suffices), and when
`interval ≤ 0` with `begin < end` the face loop never makes the loop
condition false, so it never terminates — `interval ≥ 1` is an unstated
precondition of this public entry point. -/
theorem renderingTriangles_loop_termination :
    (∀ (bg e interval : ℤ), 1 ≤ interval →
        ∃ fuel, (renderingTrianglesIter fuel bg e interval).isSome = true) ∧
      (∀ (bg e interval : ℤ), interval ≤ 0 → bg < e →
        ∀ fuel, renderingTrianglesIter fuel bg e interval = none) := by
  constructor
  · intro bg e interval hiv
    have key : ∀ (fuel : ℕ) (i : ℤ), e - i ≤ (fuel : ℤ) →
        (renderingTrianglesIter fuel i e interval).isSome = true := by
      intro fuel
      induction fuel with
      | zero =>
        intro i hle
        simp only [renderingTrianglesIter]
        rw [if_neg (by omega)]
        rfl
      | succ n ih =>
        intro i hle
        simp only [renderingTrianglesIter]
        by_cases hlt : i < e
        · rw [if_pos hlt]
          have hsome := ih (i + interval) (by push_cast at hle ⊢; omega)
          cases hri : renderingTrianglesIter n (i + interval) e interval with
          | none =>
            rw [hri] at hsome
            simp at hsome
          | some l =>
            rfl
        · rw [if_neg hlt]
          rfl
    exact ⟨(e - bg).toNat, key _ bg (by omega)⟩
  · intro bg e interval hiv hlt
    suffices h : ∀ (fuel : ℕ) (i : ℤ), i < e →
        renderingTrianglesIter fuel i e interval = none by
      intro fuel
      exact h fuel bg hlt
    intro fuel
    induction fuel with
    | zero =>
      intro i hi
      simp [renderingTrianglesIter, hi]
    | succ n ih =>
      intro i hi
      simp only [renderingTrianglesIter]
      rw [if_pos hi, ih (i + interval) (by omega)]
      rfl

/-- Witness for C10 at concrete loop bounds. -/
theorem renderingTriangles_loop_termination_witness :
    (∃ fuel, (renderingTrianglesIter fuel 0 5 1).isSome = true) ∧
      renderingTrianglesIter 3 0 5 0 = none :=
  ⟨renderingTriangles_loop_termination.1 0 5 1 (by decide),
   renderingTriangles_loop_termination.2 0 5 0 (by decide) (by decide) 3⟩

/-! ## The PNG row-defilter stage of `PNGImage::readPNG`

`png_image.cc` lines 87–123: after inflation, each scanline `(filter byte,
data_width bytes)` is reconstructed in place against the previously
reconstructed row.  Bytes are `uint8_t`, addition wraps modulo 256; rows are
modelled as byte lists, the previous row as `Option` (`none` on row 0, where
the code's `i == 0` check rejects filters 2, 3 and 4). -/

/-- Sub (filter 1) loop of `readPNG`: positions `k < bpp` keep the copied
byte; from `k = bpp` on, add the already-reconstructed byte `bpp` to the
left. -/
def reconSub (bpp : ℕ) (acc : List ℕ) : List ℕ → List ℕ
  | [] => acc
  | r :: rest =>
    let j := acc.length
    let v := if j < bpp then r else (r + acc.getD (j - bpp) 0) % 256
    reconSub bpp (acc ++ [v]) rest

/-- Up (filter 2) loop of `readPNG`: every position adds the byte directly
above. -/
def reconUp (prev : List ℕ) (acc : List ℕ) : List ℕ → List ℕ
  | [] => acc
  | r :: rest =>
    let j := acc.length
    reconUp prev (acc ++ [(r + prev.getD j 0) % 256]) rest

/-- Average (filter 3) loop of `readPNG` as coded: positions `k < bpp` keep
the copied byte (the code starts the loop at `data_begin + bpp`); later
positions add `(left + above) / 2` with C integer division. -/
def reconAvgCode (bpp : ℕ) (prev : List ℕ) (acc : List ℕ) : List ℕ → List ℕ
  | [] => acc
  | r :: rest =>
    let j := acc.length
    let v := if j < bpp then r
      else (r + (acc.getD (j - bpp) 0 + prev.getD j 0) / 2) % 256
    reconAvgCode bpp prev (acc ++ [v]) rest

/-- Paeth (filter 4) loop of `readPNG` as coded: positions `k < bpp` keep
the copied byte; later positions compare `v = |left − upleft|` with
`h = |above − upleft|` and add `above` when `v < h`, else `left` — the
up-left byte itself is never selected. -/
def reconPaethCode (bpp : ℕ) (prev : List ℕ) (acc : List ℕ) :
    List ℕ → List ℕ
  | [] => acc
  | r :: rest =>
    let j := acc.length
    let v := if j < bpp then r
      else
        let a := acc.getD (j - bpp) 0
        let b := prev.getD j 0
        let c := prev.getD (j - bpp) 0
        let dv := ((a : ℤ) - (c : ℤ)).natAbs
        let dh := ((b : ℤ) - (c : ℤ)).natAbs
        (r + (if dv < dh then b else a)) % 256
    reconPaethCode bpp prev (acc ++ [v]) rest

/-- Modelled from the spec: the PNG Paeth predictor (the spec's §4.5 refers
to the standard PNG row filters 0..4 None/Sub/Up/Average/Paeth):
`p = a + b − c`; pick whichever of `a` (left), `b` (above), `c` (up-left) is
nearest to `p`, ties resolved in the order `a`, `b`, `c`. -/
def paethPredict (a b c : ℕ) : ℕ :=
  let p : ℤ := (a : ℤ) + b - c
  let pa := (p - a).natAbs
  let pb := (p - b).natAbs
  let pc := (p - c).natAbs
  if pa ≤ pb ∧ pa ≤ pc then a else if pb ≤ pc then b else c

/-- Modelled from the spec: the PNG Average defilter
`Recon(k) = Filt(k) + ⌊(left + above) / 2⌋`, where `left` is `0` for the
first `bpp` bytes of the scanline. -/
def reconAvgPng (bpp : ℕ) (prev : List ℕ) (acc : List ℕ) : List ℕ → List ℕ
  | [] => acc
  | r :: rest =>
    let j := acc.length
    let a := if j < bpp then 0 else acc.getD (j - bpp) 0
    reconAvgPng bpp prev (acc ++ [(r + (a + prev.getD j 0) / 2) % 256]) rest

/-- Modelled from the spec: the PNG Paeth defilter
`Recon(k) = Filt(k) + PaethPredictor(left, above, upleft)`, with `left` and
`upleft` taken as `0` for the first `bpp` bytes of the scanline. -/
def reconPaethPng (bpp : ℕ) (prev : List ℕ) (acc : List ℕ) :
    List ℕ → List ℕ
  | [] => acc
  | r :: rest =>
    let j := acc.length
    let a := if j < bpp then 0 else acc.getD (j - bpp) 0
    let c := if j < bpp then 0 else prev.getD (j - bpp) 0
    reconPaethPng bpp prev
      (acc ++ [(r + paethPredict a (prev.getD j 0) c) % 256]) rest

/-- One scanline of `readPNG`'s defilter switch (lines 91–122): filter byte
0 copies, 1 Sub, 2 Up, 3 Average, 4 Paeth; filters 2, 3, 4 fail on row 0
(`i == 0` → `goto failed`), any filter byte above 4 fails (`default`). -/
def reconRowCode (bpp : ℕ) (prevO : Option (List ℕ)) (ft : ℕ)
    (raw : List ℕ) : Option (List ℕ) :=
  match ft with
  | 0 => some raw
  | 1 => some (reconSub bpp [] raw)
  | 2 => match prevO with
    | none => none
    | some prev => some (reconUp prev [] raw)
  | 3 => match prevO with
    | none => none
    | some prev => some (reconAvgCode bpp prev [] raw)
  | 4 => match prevO with
    | none => none
    | some prev => some (reconPaethCode bpp prev [] raw)
  | _ => none

/-- Modelled from the spec: the same scanline dispatch but with the PNG
defilter definitions for Average and Paeth (the failure conditions — filter
byte out of 0..4, or filters 2..4 on row 0 — as the claim states them). -/
def reconRowPng (bpp : ℕ) (prevO : Option (List ℕ)) (ft : ℕ)
    (raw : List ℕ) : Option (List ℕ) :=
  match ft with
  | 0 => some raw
  | 1 => some (reconSub bpp [] raw)
  | 2 => match prevO with
    | none => none
    | some prev => some (reconUp prev [] raw)
  | 3 => match prevO with
    | none => none
    | some prev => some (reconAvgPng bpp prev [] raw)
  | 4 => match prevO with
    | none => none
    | some prev => some (reconPaethPng bpp prev [] raw)
  | _ => none

/-- The row loop of `readPNG` (lines 87–123), code version: reconstruct the
scanlines in order, each against the previously reconstructed row. -/
def defilterRowsCode (bpp : ℕ) :
    Option (List ℕ) → List (ℕ × List ℕ) → Option (List (List ℕ))
  | _, [] => some []
  | prevO, (ft, raw) :: rest =>
    match reconRowCode bpp prevO ft raw with
    | none => none
    | some row =>
      match defilterRowsCode bpp (some row) rest with
      | none => none
      | some rows => some (row :: rows)

/-- Modelled from the spec: the row loop with the PNG defilter definitions. -/
def defilterRowsPng (bpp : ℕ) :
    Option (List ℕ) → List (ℕ × List ℕ) → Option (List (List ℕ))
  | _, [] => some []
  | prevO, (ft, raw) :: rest =>
    match reconRowPng bpp prevO ft raw with
    | none => none
    | some row =>
      match defilterRowsPng bpp (some row) rest with
      | none => none
      | some rows => some (row :: rows)

/-- Claim C9 (code bug): on the two-scanline image
`row 0: filter 0, bytes (2,0,0,0,0,0)`, `row 1: filter 3 (Average), bytes
(4,0,0,0,0,0)` with `bpp = 3`, the code reconstructs row 1 as
`(4,0,0,2,0,0)` whereas the PNG Average defilter gives `(5,0,0,2,0,0)`: the
code skips the first `bpp` bytes of an Average row (PNG adds
`⌊above/2⌋`).  Likewise its Paeth filter skips the first `bpp` bytes and
never selects the up-left byte: against the reconstructed row
`(1,0,0,2,0,0)`, Paeth raw bytes `(0,0,0,5,0,0)` give `(0,0,0,5,0,0)` in the
code but `(1,0,0,7,0,0)` per PNG.  The claim's failure conditions do hold:
filters 2..4 on row 0 and filter bytes above 4 report failure. -/
theorem png_defilter_divergence :
    defilterRowsCode 3 none [(0, [2,0,0,0,0,0]), (3, [4,0,0,0,0,0])]
        = some [[2,0,0,0,0,0], [4,0,0,2,0,0]] ∧
      defilterRowsPng 3 none [(0, [2,0,0,0,0,0]), (3, [4,0,0,0,0,0])]
        = some [[2,0,0,0,0,0], [5,0,0,2,0,0]] ∧
      defilterRowsCode 3 none [(0, [2,0,0,0,0,0]), (3, [4,0,0,0,0,0])]
        ≠ defilterRowsPng 3 none [(0, [2,0,0,0,0,0]), (3, [4,0,0,0,0,0])] ∧
      reconPaethCode 3 [1,0,0,2,0,0] [] [0,0,0,5,0,0] = [0,0,0,5,0,0] ∧
      reconPaethPng 3 [1,0,0,2,0,0] [] [0,0,0,5,0,0] = [1,0,0,7,0,0] ∧
      reconRowCode 3 none 3 [4,0,0,0,0,0] = none ∧
      reconRowCode 3 (some [2,0,0,0,0,0]) 5 [4,0,0,0,0,0] = none := by
  refine ⟨?_, ?_, ?_, ?_, ?_, ?_, ?_⟩ <;> decide

theorem s1n_mem : s1n1 ∈ homogeneous_clip [s1n0, s1n1, s1n2] := by
  rw [s1n_clip_eq]
  exact List.mem_cons_self _ _

/-- Witness for C5: a concrete surviving polygon vertex satisfies a plane's
inside test. -/
theorem homogeneous_clip_containment_witness :
    s1n1 ∈ homogeneous_clip [s1n0, s1n1, s1n2] ∧
      is_inside_plane .MINIMAL s1n1.coords = true :=
  ⟨s1n_mem,
    homogeneous_clip_containment s1n0 s1n1 s1n2 .MINIMAL s1n1 s1n_mem⟩
